import Mathlib

/-!
Verification of the hotcode-chat message pipeline.

This file gives a shallow embedding of the parts of the repository that the
frozen claims talk about:

* the optimistic merge engine of the `useMessages` hook (apps/web):
  `normalizeMessages`, the realtime-subscription merge, `loadMore`,
  `prependOptimistic`, `settleOptimistic`, `updateOptimistic`;
* the fixed-window rate limiter (`functions/src/rateLimiter.ts`);
* the timestamp normalizer `toDate` (chats hook and `chat-room.tsx`);
* the notification fan-out (`sendMessageNotification` in the functions entry);
* `dmChatId` (`shared/src/index.ts`).

JavaScript machine numbers are modelled as `Int` (all arithmetic in scope is
integral), JS objects used as string-keyed records and the `Map` values are
modelled as insertion-ordered association lists (matching `Map` / plain-object
iteration order for non-index keys), and `Array.prototype.sort` — which
ECMAScript requires to be stable — is modelled by `List.insertionSort`, which
inserts every element before the first strictly-later element and is therefore
the same stable sort.

The file is laid out as definitions first (the embedding), then theorems.
-/

namespace HotcodeChat

/-- Creation timestamp of a message as it reaches `normalizeMessages`: either a
Firestore `Timestamp` (a seconds/nanoseconds pair, compared through
`toMillis()`) or a native `Date` (compared through `getTime()`). -/
inductive CreatedAt where
  | ts (seconds nanoseconds : Int)
  | date (ms : Int)
deriving DecidableEq

/-- Milliseconds since epoch of a `CreatedAt` value.  For the `Timestamp`
branch this is `seconds*1000 + floor(nanoseconds/1e6)`, matching
`Timestamp.toMillis` (Firestore nanoseconds lie in `[0, 1e9)`, where floor
division and the JS float division agree). -/
def CreatedAt.toMillis : CreatedAt → Int
  | .ts s ns => s * 1000 + Int.fdiv ns 1000000
  | .date ms => ms

/-- The `MessageRecord` shape of the web client: a shared `Message` plus the
snapshot id.  Only the fields the verified operations inspect are kept;
`readBy` is optional exactly as in the zod schema. -/
structure MessageRecord where
  messageId : String
  chatId : String
  senderId : String
  text : Option String
  createdAt : CreatedAt
  readBy : Option (List String)
deriving DecidableEq

/-- Sort key used by `normalizeMessages`. -/
def createdMs (m : MessageRecord) : Int := m.createdAt.toMillis

/-- Comparator of `normalizeMessages`: `aDate - bDate <= 0`. -/
def msgLe (a b : MessageRecord) : Prop := createdMs a ≤ createdMs b

instance : DecidableRel msgLe :=
  fun a b => inferInstanceAs (Decidable (createdMs a ≤ createdMs b))

instance : IsTotal MessageRecord msgLe :=
  ⟨fun a b => Int.le_total (createdMs a) (createdMs b)⟩

instance : IsTrans MessageRecord msgLe := ⟨fun _ _ _ => Int.le_trans⟩

/-- The `normalizeMessages` helper of `useMessages`: a stable ascending sort by
creation instant (`[...messages].sort((a, b) => aDate - bDate)`). -/
def normalizeMessages (l : List MessageRecord) : List MessageRecord :=
  List.insertionSort msgLe l

/-- Boolean test used to state stability: membership in one tie class. -/
def keyIs (k : Int) (m : MessageRecord) : Bool := decide (createdMs m = k)

/-- Lookup in a JS record / Map. -/
def recordGet {α : Type} (r : List (String × α)) (k : String) : Option α :=
  (r.find? (fun p => p.1 == k)).map (fun p => p.2)

/-- Assignment `r[k] = v` on a JS record / `Map.set`: an existing key keeps its
position, a new key is appended. -/
def recordSet {α : Type} (r : List (String × α)) (k : String) (v : α) :
    List (String × α) :=
  if r.any (fun p => p.1 == k) then
    r.map (fun p => if p.1 = k then (k, v) else p)
  else r ++ [(k, v)]

/-- Deletion `delete r[k]`. -/
def recordDelete {α : Type} (r : List (String × α)) (k : String) :
    List (String × α) :=
  r.filter (fun p => ¬ p.1 = k)

/-- First-occurrence deduplication, the embedding of filling a JS `Set` and
reading it back in insertion order (used for the `readBy` union and the
push-token set). -/
def dedupKeepFirstAux (seen : List String) : List String → List String
  | [] => []
  | a :: l =>
    if a ∈ seen then dedupKeepFirstAux seen l
    else a :: dedupKeepFirstAux (a :: seen) l

def dedupKeepFirst (l : List String) : List String := dedupKeepFirstAux [] l

/-- One step of the JS `Map` dedup loop `deduped.set(message.messageId, message)`:
an existing id keeps its position but takes the new value, a new id is
appended. -/
def upsertById (acc : List MessageRecord) (m : MessageRecord) : List MessageRecord :=
  if acc.any (fun x => x.messageId == m.messageId) then
    acc.map (fun x => if x.messageId = m.messageId then m else x)
  else acc ++ [m]

/-- Deduplication by message id via a JS `Map`: key order is the order of first
occurrence, the value kept for a key is the last one written. -/
def dedupById (l : List MessageRecord) : List MessageRecord :=
  l.foldl upsertById []

/-- All message ids in a list are pairwise distinct. -/
def idsNodup (l : List MessageRecord) : Prop :=
  (l.map (fun m => m.messageId)).Nodup

/-- Any two entries sharing a message id carry the same creation instant. -/
def sameIdSameKey (l : List MessageRecord) : Prop :=
  ∀ a ∈ l, ∀ b ∈ l, a.messageId = b.messageId → createdMs a = createdMs b

instance (l : List MessageRecord) : Decidable (idsNodup l) :=
  inferInstanceAs (Decidable (List.Nodup _))

instance (l : List MessageRecord) : Decidable (sameIdSameKey l) :=
  inferInstanceAs (Decidable
    (∀ a ∈ l, ∀ b ∈ l, a.messageId = b.messageId → createdMs a = createdMs b))

/-- Boolean id test for counting entries. -/
def idIs (k : String) (m : MessageRecord) : Bool := decide (m.messageId = k)

/-- Number of visible entries carrying a given message id. -/
def countId (l : List MessageRecord) (k : String) : Nat := l.countP (idIs k)

/-! The optimistic merge engine of the `useMessages` hook (the relevant React
state and refs of one mounted hook): the visible `messages` array, the
`optimisticRef.current` record, and the `hasMore` / `loading` flags.  The
`loadingMore` flag and the snapshot cursors are transient plumbing of the
asynchronous fetch and are not part of the merge semantics modelled here; the
`loadMore` operation below receives the already-fetched older page. -/

structure MergeState where
  messages : List MessageRecord
  optimistic : List (String × MessageRecord)
  hasMore : Bool
  loading : Bool
deriving DecidableEq

/-- Values of the optimistic side-table in insertion order
(`Object.values(optimisticRef.current)`). -/
def optValues (s : MergeState) : List MessageRecord :=
  s.optimistic.map (fun p => p.2)

/-- Test for the reserved synthetic-id convention
(`messageId.startsWith("optimistic-")`): the character sequence of the id
starts with the characters of the reserved marker. -/
def isOptimisticId (mid : String) : Bool :=
  List.isPrefixOf "optimistic-".toList mid.toList

/-- Partial update (`Partial<MessageRecord>`) shallow-merged by object spread in
`updateOptimistic`: any subset of the record fields may be replaced. -/
structure MessagePatch where
  messageId : Option String := none
  chatId : Option String := none
  senderId : Option String := none
  text : Option (Option String) := none
  createdAt : Option CreatedAt := none
  readBy : Option (Option (List String)) := none
deriving DecidableEq

/-- Object spread `{...existing, ...patch}`. -/
def applyPatch (m : MessageRecord) (p : MessagePatch) : MessageRecord :=
  { messageId := p.messageId.getD m.messageId
    chatId := p.chatId.getD m.chatId
    senderId := p.senderId.getD m.senderId
    text := p.text.getD m.text
    createdAt := p.createdAt.getD m.createdAt
    readBy := p.readBy.getD m.readBy }

/-- The `prependOptimistic` callback: store the message in the side-table under
its own id and re-sort the visible list with the message appended. -/
def prependOptimistic (s : MergeState) (m : MessageRecord) : MergeState :=
  { s with
    optimistic := recordSet s.optimistic m.messageId m
    messages := normalizeMessages (s.messages ++ [m]) }

/-- Spread-merge of the `mergeReadBy` branch of `settleOptimistic`:
`{...existing, ...next, readBy: Array.from(new Set([...existing.readBy ?? [],
...next.readBy ?? []]))}` — every key present on `next` wins (for the optional
`text` an absent key falls back to the existing entry), and `readBy` becomes
the order-preserving union. -/
def mergeReadBySets (existing nxt : MessageRecord) : MessageRecord :=
  { messageId := nxt.messageId
    chatId := nxt.chatId
    senderId := nxt.senderId
    text := nxt.text.orElse (fun _ => existing.text)
    createdAt := nxt.createdAt
    readBy := some (dedupKeepFirst (existing.readBy.getD [] ++ nxt.readBy.getD [])) }

/-- Replacement at the first index matched by `findIndex`; `none` when no entry
matches (`existingIndex < 0`). -/
def updateFirstById (mid : String) (f : MessageRecord → MessageRecord) :
    List MessageRecord → Option (List MessageRecord)
  | [] => none
  | a :: l =>
    if a.messageId = mid then some (f a :: l)
    else (updateFirstById mid f l).map (fun l2 => a :: l2)

/-- Final step of `settleOptimistic` with a persisted message: either merge
`readBy` into the first existing entry with the final id (when requested via
`options?.mergeReadBy` and such an entry exists) or append the final message;
both branches re-sort. -/
def settleMerged (merged : List MessageRecord) (nxt : MessageRecord)
    (mergeReadBy : Bool) : List MessageRecord :=
  if mergeReadBy then
    match updateFirstById nxt.messageId (fun ex => mergeReadBySets ex nxt) merged with
    | some replaced => normalizeMessages replaced
    | none => normalizeMessages (merged ++ [nxt])
  else normalizeMessages (merged ++ [nxt])

/-- The visible-list update of `settleOptimistic`: remove the optimistic entry;
with no final message stop there; otherwise also drop any stale optimistic
entry carrying the final id and finish with `settleMerged`. -/
def settleMessages (prev : List MessageRecord) (optimisticId : String) :
    Option MessageRecord → Bool → List MessageRecord
  | none, _ => prev.filter (fun m => ¬ m.messageId = optimisticId)
  | some nxt, mergeReadBy =>
    settleMerged
      ((prev.filter (fun m => ¬ m.messageId = optimisticId)).filter
        (fun m => ¬ (m.messageId = nxt.messageId ∧ isOptimisticId m.messageId = true)))
      nxt mergeReadBy

/-- The `settleOptimistic` callback: drop the side-table entry and update the
visible list as described by `settleMessages`. -/
def settleOptimistic (s : MergeState) (optimisticId : String)
    (next : Option MessageRecord) (mergeReadBy : Bool) : MergeState :=
  { s with
    optimistic := recordDelete s.optimistic optimisticId
    messages := settleMessages s.messages optimisticId next mergeReadBy }

/-- The `updateOptimistic` callback: a no-op unless the id is pending in the
side-table; otherwise patch the side-table entry and substitute the patched
record for every visible entry carrying the id. -/
def updateOptimistic (s : MergeState) (optimisticId : String)
    (patch : MessagePatch) : MergeState :=
  match recordGet s.optimistic optimisticId with
  | none => s
  | some existing =>
    let patched := applyPatch existing patch
    { s with
      optimistic := recordSet s.optimistic optimisticId patched
      messages := s.messages.map
        (fun m => if m.messageId = optimisticId then patched else m) }

/-- One emission of the realtime subscription (`onSnapshot` callback) carrying
the current descending-ordered window `docs`: an empty window clears the view
down to the pending optimistic entries and reports `hasMore=false`; otherwise
previous non-optimistic entries, the sorted live-plus-optimistic merge, and
Map-deduplication produce the new view, and `hasMore` is exactly "the window is
full". -/
def applySnapshot (s : MergeState) (docs : List MessageRecord) (pageSize : Nat) :
    MergeState :=
  if docs.isEmpty then
    { s with messages := optValues s, loading := false, hasMore := false }
  else
    let nonOptimistic := s.messages.filter (fun m => ¬ isOptimisticId m.messageId = true)
    let merged := normalizeMessages (docs ++ optValues s)
    let deduped := dedupById (nonOptimistic ++ merged)
    { s with
      messages := normalizeMessages deduped
      loading := false
      hasMore := decide (docs.length = pageSize) }

/-- The `loadMore` callback, after its one-shot backward fetch returned the page
`older`: guarded by `hasMore`; an empty page only clears `hasMore`; otherwise
the view becomes the Map-deduplication of the re-sorted concatenation (with no
re-sort after dedup), and a short page clears `hasMore`. -/
def loadMore (s : MergeState) (older : List MessageRecord) (pageSize : Nat) :
    MergeState :=
  if ¬ s.hasMore = true then s
  else if older.isEmpty then { s with hasMore := false }
  else
    { s with
      messages := dedupById (normalizeMessages (s.messages ++ older))
      hasMore := if older.length < pageSize then false else s.hasMore }

/-! The fixed-window rate limiter of `functions/src/rateLimiter.ts`.  The throw
of an `HttpsError` is modelled by returning `some "resource-exhausted"`
together with the (untouched) module-level bucket map; a normal return is
`none` together with the updated map. -/

structure RateLimiterOptions where
  windowMs : Int
  maxRequests : Nat
deriving DecidableEq

structure Bucket where
  count : Nat
  expiresAt : Int
deriving DecidableEq

/-- The module-level `buckets` map. -/
abbrev RLState := List (String × Bucket)

/-- One call of `assertRateLimit(key, options)` at instant `now`. -/
def assertRateLimit (now : Int) (key : String) (opts : RateLimiterOptions)
    (buckets : RLState) : Option String × RLState :=
  match recordGet buckets key with
  | none => (none, recordSet buckets key ⟨1, now + opts.windowMs⟩)
  | some existing =>
    if existing.expiresAt ≤ now then
      (none, recordSet buckets key ⟨1, now + opts.windowMs⟩)
    else if opts.maxRequests ≤ existing.count then
      (some "resource-exhausted", buckets)
    else
      (none, recordSet buckets key ⟨existing.count + 1, existing.expiresAt⟩)

/-- A sequence of calls at the given instants; returns how many of them
succeeded together with the final bucket map. -/
def runCalls (key : String) (opts : RateLimiterOptions) :
    List Int → RLState → Nat × RLState
  | [], buckets => (0, buckets)
  | t :: ts, buckets =>
    let r := assertRateLimit t key opts buckets
    let rest := runCalls key opts ts r.2
    ((if r.1.isNone then 1 else 0) + rest.1, rest.2)

/-! The timestamp normalizer `toDate` (identical in the chats hook and in
`chat-room.tsx`).  Its `unknown` argument is modelled by a JS value universe;
the result is `none` for JS `null` and `some instant` for a `Date` object,
where the instant itself is `none` for an Invalid Date (the NaN time value
produced when a `seconds`-keyed object does not carry two numbers). -/

inductive JSValue where
  | jsNull
  | jsUndef
  | jsBool (b : Bool)
  | jsNum (n : Int)
  | jsStr (s : String)
  | jsDate (ms : Int)
  | jsTimestamp (seconds nanoseconds : Int)
  | jsObj (fields : List (String × JSValue))

/-- JS falsiness of the modelled values (`!value`). -/
def falsyJS : JSValue → Bool
  | .jsNull => true
  | .jsUndef => true
  | .jsBool b => !b
  | .jsNum n => n == 0
  | .jsStr s => s == ""
  | _ => false

/-- Reading a field that is expected to be a number; `none` when the field is
absent or not a number (in JS the arithmetic then yields NaN). -/
def numField (fields : List (String × JSValue)) (k : String) : Option Int :=
  match recordGet fields k with
  | some (.jsNum n) => some n
  | _ => none

/-- The `toDate` helper: falsy input gives null; a `Date` passes through; a
`Timestamp` converts via `toDate()`; any other object with a `seconds` key is
converted with `seconds*1000 + Math.floor(nanoseconds/1_000_000)` (an Invalid
Date when the two fields are not both numbers); everything else gives null. -/
def toDate (v : JSValue) : Option (Option Int) :=
  if falsyJS v then none
  else
    match v with
    | .jsDate ms => some (some ms)
    | .jsTimestamp s ns => some (some (s * 1000 + Int.fdiv ns 1000000))
    | .jsObj fields =>
      if fields.any (fun p => p.1 == "seconds") then
        match numField fields "seconds", numField fields "nanoseconds" with
        | some s, some ns => some (some (s * 1000 + Int.fdiv ns 1000000))
        | _, _ => some none
      else none
    | _ => none

/-- Spec-side classification of the inputs for which the implementation hands
back a date object (used to compare the implemented acceptance set with the
documented one). -/
def returnsInstant : JSValue → Bool
  | .jsDate _ => true
  | .jsTimestamp _ _ => true
  | .jsObj fields => fields.any (fun p => p.1 == "seconds")
  | _ => false

/-! The notification fan-out `sendMessageNotification` of the functions entry
point.  The two Firestore reads are passed in as data: the chat document (or
`none` when it does not exist) and the per-user token lists (`fcmTokens ?? []`
of each target's user document).  The result records which of the early
returns was taken or the single multicast payload that is sent. -/

structure ChatDoc where
  participants : List String
  mutedBy : List String
  name : Option String
  chatType : Option String
deriving DecidableEq

structure MessageData where
  senderId : String
  text : Option String
  msgType : Option String
  attachments : Option (List String)
deriving DecidableEq

structure NotifPayload where
  tokens : List String
  title : String
  body : String
  dataChatId : String
  dataMessageId : String
  dataType : String
deriving DecidableEq

inductive FanoutResult where
  | noChat
  | noTargets
  | noTokens
  | multicast (payload : NotifPayload)
deriving DecidableEq

/-- Targets: `participants.filter(m => m !== senderId && !mutedBy.includes(m))`. -/
def notificationTargets (chat : ChatDoc) (msg : MessageData) : List String :=
  chat.participants.filter
    (fun memberId => ¬ memberId = msg.senderId ∧ memberId ∉ chat.mutedBy)

/-- Token gathering: each target's tokens are added to one `Set`, read back in
insertion order. -/
def gatherTokens (userTokens : String → List String) (targets : List String) :
    List String :=
  dedupKeepFirst (targets.foldr (fun t acc => userTokens t ++ acc) [])

def notificationTitle (chat : ChatDoc) : String :=
  if chat.chatType = some "group" then chat.name.getD "New group message"
  else "New message"

def notificationBody (msg : MessageData) : String :=
  match msg.text with
  | some t => t
  | none =>
    match msg.attachments with
    | some l =>
      if l.length ≠ 0 then
        toString l.length ++ " attachment" ++ (if l.length = 1 then "" else "s")
      else "New activity in your chat."
    | none => "New activity in your chat."

def sendMessageNotification (chat : Option ChatDoc)
    (userTokens : String → List String) (chatId messageId : String)
    (msg : MessageData) : FanoutResult :=
  match chat with
  | none => .noChat
  | some c =>
    if (notificationTargets c msg).isEmpty then .noTargets
    else if (gatherTokens userTokens (notificationTargets c msg)).isEmpty then
      .noTokens
    else
      .multicast ⟨gatherTokens userTokens (notificationTargets c msg),
        notificationTitle c, notificationBody msg,
        chatId, messageId, msg.msgType.getD "text"⟩

/-- Number of multicast sends a fan-out run performs. -/
def multicastCount : FanoutResult → Nat
  | .multicast _ => 1
  | _ => 0

inductive FanoutLog where
  | warnFailures (count : Nat)
  | infoDelivered (count : Nat)
deriving DecidableEq

/-- Processing of the multicast response: per-token failures are only counted
and logged; the function always returns normally with a log entry. -/
def handleMulticastResponse (responses : List Bool) : FanoutLog :=
  if (responses.filter (fun ok => !ok)).length ≠ 0 then
    .warnFailures (responses.filter (fun ok => !ok)).length
  else .infoDelivered (responses.countP (fun ok => ok))

/-! The deterministic dm-chat identity of `shared/src/index.ts`:
`[uidA, uidB].sort().join("__")`. -/

/-- Embedding of `Array.prototype.join("__")`. -/
def joinIds : List String → String
  | [] => ""
  | [x] => x
  | x :: xs => x ++ "__" ++ joinIds xs

/-- The `dmChatId` helper: the two ids sorted (default JS sort = lexicographic
string order, stable) and joined with a double underscore. -/
def dmChatId (uidA uidB : String) : String :=
  joinIds (List.insertionSort (fun a b : String => a ≤ b) [uidA, uidB])

/-! Concrete fixtures used by witnesses and counterexamples. -/

/-- A persisted message already visible in the chat. -/
def cexLive : MessageRecord :=
  ⟨"m1", "chat-1", "u2", some "hello", .date 5, some ["u2"]⟩

/-- A pending optimistic message. -/
def cexOpt : MessageRecord :=
  ⟨"optimistic-1", "chat-1", "u1", some "hi", .date 9, none⟩

/-- The persisted form of the optimistic message, carrying the same final id as
the already-visible entry. -/
def cexFinal : MessageRecord :=
  ⟨"m1", "chat-1", "u1", some "hi", .date 5, some ["u1"]⟩

/-- A fresh live message distinct from everything above. -/
def cexDoc : MessageRecord :=
  ⟨"m2", "chat-1", "u2", some "new", .date 7, none⟩

/-- A visible state holding the one persisted message and nothing pending. -/
def cexState : MergeState := ⟨[cexLive], [], true, false⟩

/-- An optimistic entry created before the persisted message. -/
def cexOptEarly : MessageRecord :=
  ⟨"optimistic-1", "chat-1", "u1", some "hi", .date 0, none⟩

/-- A sorted state whose optimistic entry precedes the persisted one. -/
def cexOptState : MergeState :=
  ⟨[cexOptEarly, cexLive], [("optimistic-1", cexOptEarly)], true, false⟩

/-- A patch that moves the creation instant (allowed by `Partial<MessageRecord>`). -/
def cexLatePatch : MessagePatch := { createdAt := some (.date 99) }

/-- A patch that touches only the text, leaving the creation instant alone. -/
def cexTextPatch : MessagePatch := { text := some (some "updated") }

/-- A group chat with one muted participant. -/
def cexChat : ChatDoc := ⟨["u1", "u2", "u3"], ["u3"], some "Team", some "group"⟩

/-- A text message sent by the first participant. -/
def cexMsg : MessageData := ⟨"u1", some "hello", some "text", none⟩

/-- Registration tokens per user: only the second participant has devices. -/
def cexTokens : String → List String :=
  fun u => if u = "u2" then ["tok1", "tok2"] else []

/-- The multicast payload the fan-out builds for the fixtures above. -/
def cexPayload : NotifPayload :=
  ⟨["tok1", "tok2"], "Team", "hello", "chat-1", "m9", "text"⟩

/-! Theorems.  First the library of facts about the embedding, then one theorem
per claim (with witnesses and counterexamples where applicable). -/

theorem normalizeMessages_perm (l : List MessageRecord) :
    List.Perm (normalizeMessages l) l :=
  List.perm_insertionSort msgLe l

theorem normalizeMessages_sorted (l : List MessageRecord) :
    (normalizeMessages l).Sorted msgLe :=
  List.sorted_insertionSort msgLe l

theorem mem_normalizeMessages {m : MessageRecord} {l : List MessageRecord} :
    m ∈ normalizeMessages l ↔ m ∈ l :=
  List.mem_insertionSort msgLe

theorem filter_keyIs_orderedInsert_eq (k : Int) (a : MessageRecord)
    (ha : createdMs a = k) :
    ∀ l : List MessageRecord,
      (List.orderedInsert msgLe a l).filter (keyIs k) = a :: l.filter (keyIs k)
  | [] => by simp [List.orderedInsert, keyIs, ha]
  | b :: l => by
    by_cases h : msgLe a b
    · simp [List.orderedInsert, if_pos h, List.filter_cons, keyIs, ha]
    · have hba : createdMs b < createdMs a := lt_of_not_le h
      have hbk : ¬ createdMs b = k := by omega
      simp only [List.orderedInsert, if_neg h, List.filter_cons]
      simp [keyIs, hbk, filter_keyIs_orderedInsert_eq k a ha l]

theorem filter_keyIs_orderedInsert_ne (k : Int) (a : MessageRecord)
    (ha : ¬ createdMs a = k) :
    ∀ l : List MessageRecord,
      (List.orderedInsert msgLe a l).filter (keyIs k) = l.filter (keyIs k)
  | [] => by simp [List.orderedInsert, keyIs, ha]
  | b :: l => by
    by_cases h : msgLe a b
    · simp [List.orderedInsert, if_pos h, List.filter_cons, keyIs, ha]
    · simp only [List.orderedInsert, if_neg h, List.filter_cons]
      rw [filter_keyIs_orderedInsert_ne k a ha l]

/-- Stability of `normalizeMessages`: within any class of equal creation
instants the entries keep their original relative order. -/
theorem normalizeMessages_stable (k : Int) :
    ∀ l : List MessageRecord,
      (normalizeMessages l).filter (keyIs k) = l.filter (keyIs k)
  | [] => rfl
  | a :: l => by
    show (List.orderedInsert msgLe a (normalizeMessages l)).filter (keyIs k) = _
    by_cases h : createdMs a = k
    · rw [filter_keyIs_orderedInsert_eq k a h, normalizeMessages_stable k l]
      simp [List.filter_cons, keyIs, h]
    · rw [filter_keyIs_orderedInsert_ne k a h, normalizeMessages_stable k l]
      simp [List.filter_cons, keyIs, h]

theorem recordSet_map_eq {α : Type} (r : List (String × α)) (k : String) (v : α)
    (h : r.any (fun p => p.1 == k) = true) :
    ((r.map (fun p => if p.1 = k then (k, v) else p)).find?
        (fun p => p.1 == k)).map (fun p => p.2) = some v := by
  induction r with
  | nil => simp at h
  | cons p r ih =>
    by_cases hp : p.1 = k
    · simp [List.find?, hp]
    · have hr : r.any (fun p => p.1 == k) = true := by
        simp only [List.any_cons, Bool.or_eq_true, beq_iff_eq] at h
        rcases h with h | h
        · exact absurd h hp
        · exact h
      simp only [List.map_cons, if_neg hp, List.find?]
      rw [show ((p.1 == k) = false) from by simp [hp]]
      exact ih hr

theorem recordGet_append_singleton {α : Type} (r : List (String × α)) (k : String)
    (v : α) (h : ∀ p ∈ r, ¬ p.1 = k) :
    recordGet (r ++ [(k, v)]) k = some v := by
  induction r with
  | nil => simp [recordGet, List.find?]
  | cons p r ih =>
    have hp : ¬ p.1 = k := h p (List.mem_cons_self p r)
    simp only [recordGet, List.cons_append, List.find?]
    rw [show ((p.1 == k) = false) from by simp [hp]]
    exact ih (fun q hq => h q (List.mem_cons_of_mem p hq))

theorem recordGet_recordSet_self {α : Type} (r : List (String × α)) (k : String)
    (v : α) : recordGet (recordSet r k v) k = some v := by
  unfold recordSet
  by_cases h : r.any (fun p => p.1 == k) = true
  · rw [if_pos h]
    exact recordSet_map_eq r k v h
  · rw [if_neg h]
    apply recordGet_append_singleton
    intro p hp hpk
    exact h (by simp only [List.any_eq_true]; exact ⟨p, hp, by simp [hpk]⟩)

theorem recordGet_recordSet_ne {α : Type} (r : List (String × α)) (k k2 : String)
    (v : α) (hne : ¬ k2 = k) : recordGet (recordSet r k v) k2 = recordGet r k2 := by
  unfold recordSet
  by_cases h : r.any (fun p => p.1 == k) = true
  · rw [if_pos h]
    unfold recordGet
    clear h
    induction r with
    | nil => rfl
    | cons p r ih =>
      by_cases hp : p.1 = k
      · simp only [List.map_cons, if_pos hp, List.find?]
        rw [show ((k == k2) = false) from beq_eq_false_iff_ne.mpr (Ne.symm hne),
          show ((p.1 == k2) = false) from
            beq_eq_false_iff_ne.mpr (by rw [hp]; exact Ne.symm hne)]
        exact ih
      · simp only [List.map_cons, if_neg hp, List.find?]
        cases hpk2 : (p.1 == k2) with
        | true => rfl
        | false => exact ih
  · rw [if_neg h]
    unfold recordGet
    rw [List.find?_append]
    cases hf : r.find? (fun p => p.1 == k2) with
    | some p => simp [hf]
    | none =>
      simp only [Option.none_or]
      rw [List.find?_cons_of_neg]
      · simp [List.find?]
      · simp [Ne.symm hne]

theorem mem_dedupKeepFirstAux {x : String} :
    ∀ {seen l : List String}, x ∈ dedupKeepFirstAux seen l ↔ x ∈ l ∧ x ∉ seen := by
  intro seen l
  induction l generalizing seen with
  | nil => simp [dedupKeepFirstAux]
  | cons a l ih =>
    by_cases ha : a ∈ seen
    · rw [dedupKeepFirstAux, if_pos ha, ih]
      constructor
      · rintro ⟨hx, hns⟩
        exact ⟨List.mem_cons_of_mem a hx, hns⟩
      · rintro ⟨hx, hns⟩
        rcases List.mem_cons.mp hx with rfl | hx
        · exact absurd ha hns
        · exact ⟨hx, hns⟩
    · rw [dedupKeepFirstAux, if_neg ha]
      constructor
      · intro hx
        rcases List.mem_cons.mp hx with rfl | hx
        · exact ⟨List.mem_cons_self x l, ha⟩
        · rcases ih.mp hx with ⟨h1, h2⟩
          refine ⟨List.mem_cons_of_mem a h1, fun hc => h2 ?_⟩
          exact List.mem_cons_of_mem a hc
      · rintro ⟨hx, hns⟩
        rcases List.mem_cons.mp hx with rfl | hx
        · exact List.mem_cons_self x _
        · by_cases hxa : x = a
          · subst hxa; exact List.mem_cons_self x _
          · exact List.mem_cons_of_mem a
              (ih.mpr ⟨hx, by simp [List.mem_cons, hxa, hns]⟩)

theorem mem_dedupKeepFirst {x : String} {l : List String} :
    x ∈ dedupKeepFirst l ↔ x ∈ l := by
  rw [dedupKeepFirst, mem_dedupKeepFirstAux]
  simp

theorem nodup_dedupKeepFirstAux :
    ∀ (seen l : List String), (dedupKeepFirstAux seen l).Nodup
  | _, [] => List.nodup_nil
  | seen, a :: l => by
    by_cases ha : a ∈ seen
    · rw [dedupKeepFirstAux, if_pos ha]
      exact nodup_dedupKeepFirstAux seen l
    · rw [dedupKeepFirstAux, if_neg ha]
      refine List.Nodup.cons ?_ (nodup_dedupKeepFirstAux (a :: seen) l)
      intro hc
      exact (mem_dedupKeepFirstAux.mp hc).2 (List.mem_cons_self a seen)

theorem nodup_dedupKeepFirst (l : List String) : (dedupKeepFirst l).Nodup :=
  nodup_dedupKeepFirstAux [] l

theorem mem_upsertById {x m : MessageRecord} {acc : List MessageRecord}
    (h : x ∈ upsertById acc m) : x ∈ acc ∨ x = m := by
  unfold upsertById at h
  by_cases hc : acc.any (fun x => x.messageId == m.messageId) = true
  · rw [if_pos hc] at h
    rcases List.mem_map.mp h with ⟨y, hy, hyx⟩
    by_cases hid : y.messageId = m.messageId
    · right; rw [if_pos hid] at hyx; exact hyx.symm
    · left; rw [if_neg hid] at hyx; exact hyx ▸ hy
  · rw [if_neg hc] at h
    rcases List.mem_append.mp h with h | h
    · left; exact h
    · right; simpa using h

theorem self_mem_upsertById (acc : List MessageRecord) (m : MessageRecord) :
    m ∈ upsertById acc m := by
  unfold upsertById
  by_cases hc : acc.any (fun x => x.messageId == m.messageId) = true
  · rw [if_pos hc]
    rcases List.any_eq_true.mp hc with ⟨y, hy, hym⟩
    exact List.mem_map.mpr ⟨y, hy, by rw [if_pos (beq_iff_eq.mp hym)]⟩
  · rw [if_neg hc]; simp

theorem mem_upsertById_of_ne {x : MessageRecord} {acc : List MessageRecord}
    (m : MessageRecord) (hx : x ∈ acc) (hne : ¬ x.messageId = m.messageId) :
    x ∈ upsertById acc m := by
  unfold upsertById
  by_cases hc : acc.any (fun x => x.messageId == m.messageId) = true
  · rw [if_pos hc]
    exact List.mem_map.mpr ⟨x, hx, by rw [if_neg hne]⟩
  · rw [if_neg hc]
    exact List.mem_append_left _ hx

theorem exists_id_upsertById {acc : List MessageRecord} {m : MessageRecord}
    {k : String} (h : ∃ a ∈ acc, a.messageId = k) :
    ∃ a ∈ upsertById acc m, a.messageId = k := by
  rcases h with ⟨a, ha, hak⟩
  by_cases hne : a.messageId = m.messageId
  · exact ⟨m, self_mem_upsertById acc m, by rw [← hne]; exact hak⟩
  · exact ⟨a, mem_upsertById_of_ne m ha hne, hak⟩

theorem mem_foldl_upsertById {x : MessageRecord} :
    ∀ {l acc : List MessageRecord}, x ∈ l.foldl upsertById acc → x ∈ acc ∨ x ∈ l := by
  intro l
  induction l with
  | nil => intro acc h; left; exact h
  | cons m l ih =>
    intro acc h
    rw [List.foldl_cons] at h
    rcases ih h with h2 | h2
    · rcases mem_upsertById h2 with h3 | h3
      · left; exact h3
      · right; exact h3 ▸ List.mem_cons_self _ _
    · right; exact List.mem_cons_of_mem m h2

theorem exists_id_foldl_upsertById {k : String} :
    ∀ {l acc : List MessageRecord},
      ((∃ a ∈ acc, a.messageId = k) ∨ (∃ a ∈ l, a.messageId = k)) →
      ∃ a ∈ l.foldl upsertById acc, a.messageId = k := by
  intro l
  induction l with
  | nil =>
    intro acc h
    rcases h with h | h
    · exact h
    · rcases h with ⟨a, ha, _⟩; cases ha
  | cons m l ih =>
    intro acc h
    rw [List.foldl_cons]
    rcases h with h | h
    · exact ih (Or.inl (exists_id_upsertById h))
    · rcases h with ⟨a, ha, hak⟩
      rcases List.mem_cons.mp ha with rfl | ha
      · exact ih (Or.inl ⟨a, self_mem_upsertById acc a, hak⟩)
      · exact ih (Or.inr ⟨a, ha, hak⟩)

theorem mem_foldl_upsertById_of_not_id {x : MessageRecord} :
    ∀ {l acc : List MessageRecord}, x ∈ acc →
      (∀ y ∈ l, ¬ y.messageId = x.messageId) → x ∈ l.foldl upsertById acc := by
  intro l
  induction l with
  | nil => intro acc hx _; exact hx
  | cons m l ih =>
    intro acc hx h
    rw [List.foldl_cons]
    refine ih (mem_upsertById_of_ne m hx ?_) (fun y hy => h y (List.mem_cons_of_mem m hy))
    intro hc
    exact h m (List.mem_cons_self m l) hc.symm

/-- Last write wins: an element followed only by entries with other ids
survives deduplication unchanged. -/
theorem mem_dedupById_of_last (l1 l2 : List MessageRecord) (x : MessageRecord)
    (h : ∀ y ∈ l2, ¬ y.messageId = x.messageId) :
    x ∈ dedupById (l1 ++ x :: l2) := by
  unfold dedupById
  rw [List.foldl_append, List.foldl_cons]
  exact mem_foldl_upsertById_of_not_id (self_mem_upsertById _ x) h

theorem mem_dedupById {x : MessageRecord} {l : List MessageRecord}
    (h : x ∈ dedupById l) : x ∈ l := by
  rcases mem_foldl_upsertById h with h2 | h2
  · cases h2
  · exact h2

theorem exists_id_dedupById {l : List MessageRecord} {m : MessageRecord}
    (h : m ∈ l) : ∃ a ∈ dedupById l, a.messageId = m.messageId :=
  exists_id_foldl_upsertById (Or.inr ⟨m, h, rfl⟩)

theorem idsNodup_upsertById {acc : List MessageRecord} (m : MessageRecord)
    (h : idsNodup acc) : idsNodup (upsertById acc m) := by
  by_cases hc : acc.any (fun x => x.messageId == m.messageId) = true
  · unfold idsNodup upsertById
    rw [if_pos hc, List.map_map]
    have h2 : ∀ x ∈ acc,
        ((fun x => x.messageId) ∘ fun x => if x.messageId = m.messageId then m else x) x
          = x.messageId := by
      intro x hx
      by_cases hid : x.messageId = m.messageId
      · simp [hid]
      · simp [hid]
    rw [List.map_congr_left h2]
    exact h
  · unfold idsNodup upsertById
    rw [if_neg hc, List.map_append]
    rw [List.nodup_append]
    refine ⟨h, List.nodup_singleton _, fun a ha hb => ?_⟩
    rcases List.mem_map.mp ha with ⟨x, hx, rfl⟩
    simp only [List.map_cons, List.map_nil, List.mem_singleton] at hb
    exact hc (List.any_eq_true.mpr ⟨x, hx, beq_iff_eq.mpr hb⟩)

theorem idsNodup_foldl_upsertById :
    ∀ (l : List MessageRecord) {acc : List MessageRecord}, idsNodup acc →
      idsNodup (l.foldl upsertById acc)
  | [], _, h => h
  | m :: l, acc, h => by
    rw [List.foldl_cons]
    exact idsNodup_foldl_upsertById l (idsNodup_upsertById m h)

theorem idsNodup_dedupById (l : List MessageRecord) : idsNodup (dedupById l) :=
  idsNodup_foldl_upsertById l (by simp [idsNodup])

theorem sameIdSameKey_mono {l1 l2 : List MessageRecord}
    (hsub : ∀ x ∈ l1, x ∈ l2) (h : sameIdSameKey l2) : sameIdSameKey l1 :=
  fun a ha b hb hab => h a (hsub a ha) b (hsub b hb) hab

theorem keys_foldl_upsertById_sublist :
    ∀ (l acc : List MessageRecord), sameIdSameKey (acc ++ l) →
      ((l.foldl upsertById acc).map createdMs).Sublist
        (acc.map createdMs ++ l.map createdMs)
  | [], acc, _ => by simp
  | m :: l, acc, h => by
    rw [List.foldl_cons]
    have hsub : ∀ x ∈ upsertById acc m ++ l, x ∈ acc ++ m :: l := by
      intro x hx
      rcases List.mem_append.mp hx with hx | hx
      · rcases mem_upsertById hx with hx | rfl
        · exact List.mem_append_left _ hx
        · exact List.mem_append_right _ (List.mem_cons_self _ _)
      · exact List.mem_append_right _ (List.mem_cons_of_mem _ hx)
    have ih := keys_foldl_upsertById_sublist l (upsertById acc m)
      (sameIdSameKey_mono hsub h)
    by_cases hc : acc.any (fun x => x.messageId == m.messageId) = true
    · have hkeys : (upsertById acc m).map createdMs = acc.map createdMs := by
        unfold upsertById
        rw [if_pos hc, List.map_map]
        apply List.map_congr_left
        intro x hx
        by_cases hid : x.messageId = m.messageId
        · have hk := h x (List.mem_append_left _ hx) m
            (List.mem_append_right _ (List.mem_cons_self _ _)) hid
          simp [hid, hk]
        · simp [hid]
      rw [hkeys] at ih
      refine ih.trans ?_
      rw [List.map_cons]
      exact List.Sublist.append_left (List.sublist_cons_self _ _) _
    · have hkeys : (upsertById acc m).map createdMs
          = acc.map createdMs ++ [createdMs m] := by
        unfold upsertById
        rw [if_neg hc, List.map_append]
        rfl
      rw [hkeys, List.append_assoc] at ih
      simpa using ih

theorem dedupById_keys_sublist (l : List MessageRecord) (h : sameIdSameKey l) :
    ((dedupById l).map createdMs).Sublist (l.map createdMs) := by
  have h2 := keys_foldl_upsertById_sublist l [] (by simpa using h)
  simpa using h2

theorem sorted_msgLe_iff_keys (l : List MessageRecord) :
    l.Sorted msgLe ↔ (l.map createdMs).Sorted (· ≤ ·) := by
  constructor
  · intro h
    exact List.pairwise_map.mpr (h.imp (fun hab => hab))
  · intro h
    exact (List.pairwise_map.mp h).imp (fun hab => hab)

theorem dedupById_sorted {l : List MessageRecord} (hl : l.Sorted msgLe)
    (h : sameIdSameKey l) : (dedupById l).Sorted msgLe := by
  rw [sorted_msgLe_iff_keys] at hl ⊢
  exact List.Pairwise.sublist (dedupById_keys_sublist l h) hl

theorem countId_normalizeMessages (l : List MessageRecord) (k : String) :
    countId (normalizeMessages l) k = countId l k :=
  (normalizeMessages_perm l).countP_eq _

theorem countId_append (l1 l2 : List MessageRecord) (k : String) :
    countId (l1 ++ l2) k = countId l1 k + countId l2 k :=
  List.countP_append _ _ _

theorem countId_filter_of_imp (l : List MessageRecord) (k : String)
    (q : MessageRecord → Bool) (h : ∀ m, idIs k m = true → q m = true) :
    countId (l.filter q) k = countId l k := by
  unfold countId
  rw [List.countP_filter]
  apply List.countP_congr
  intro m _
  constructor
  · intro hm
    exact (Bool.and_eq_true _ _).mp hm |>.1
  · intro hm
    exact (Bool.and_eq_true _ _).mpr ⟨hm, h m hm⟩

theorem countId_eq_zero {l : List MessageRecord} {k : String} :
    countId l k = 0 ↔ ∀ m ∈ l, ¬ m.messageId = k := by
  unfold countId
  rw [List.countP_eq_zero]
  constructor
  · intro h m hm hk
    exact h m hm (by simp [idIs, hk])
  · intro h m hm hk
    exact h m hm (by simpa [idIs] using hk)

theorem countId_pos_of_mem {l : List MessageRecord} {a : MessageRecord} {k : String}
    (ha : a ∈ l) (hk : a.messageId = k) : 0 < countId l k :=
  List.countP_pos_iff.mpr ⟨a, ha, by simp [idIs, hk]⟩

theorem countId_filter_le (l : List MessageRecord) (q : MessageRecord → Bool)
    (k : String) : countId (l.filter q) k ≤ countId l k := by
  unfold countId
  rw [List.countP_filter]
  apply List.countP_mono_left
  intro a _ h
  exact ((Bool.and_eq_true _ _).mp h).1

theorem countId_singleton_ne {m : MessageRecord} {k : String}
    (h : ¬ m.messageId = k) : countId [m] k = 0 := by
  simp [countId, List.countP_cons, idIs, h]

theorem countId_singleton_eq {m : MessageRecord} {k : String}
    (h : m.messageId = k) : countId [m] k = 1 := by
  simp [countId, List.countP_cons, idIs, h]

theorem updateFirstById_none {mid : String} {f : MessageRecord → MessageRecord} :
    ∀ {l : List MessageRecord}, updateFirstById mid f l = none →
      ∀ y ∈ l, ¬ y.messageId = mid := by
  intro l
  induction l with
  | nil => intro _ y hy; cases hy
  | cons a l ih =>
    intro h y hy
    unfold updateFirstById at h
    by_cases ha : a.messageId = mid
    · rw [if_pos ha] at h; cases h
    · rw [if_neg ha] at h
      have h2 : updateFirstById mid f l = none := by
        cases hu : updateFirstById mid f l with
        | none => rfl
        | some l2 => rw [hu] at h; cases h
      rcases List.mem_cons.mp hy with rfl | hy
      · exact ha
      · exact ih h2 y hy

theorem updateFirstById_some_found {mid : String} {f : MessageRecord → MessageRecord} :
    ∀ {l l2 : List MessageRecord}, updateFirstById mid f l = some l2 →
      ∃ a ∈ l, a.messageId = mid := by
  intro l
  induction l with
  | nil => intro l2 h; cases h
  | cons a l ih =>
    intro l2 h
    unfold updateFirstById at h
    by_cases ha : a.messageId = mid
    · exact ⟨a, List.mem_cons_self a l, ha⟩
    · rw [if_neg ha] at h
      cases hu : updateFirstById mid f l with
      | none => rw [hu] at h; cases h
      | some l3 =>
        rcases ih hu with ⟨b, hb, hbm⟩
        exact ⟨b, List.mem_cons_of_mem a hb, hbm⟩

theorem countId_updateFirstById {mid : String} {f : MessageRecord → MessageRecord}
    (hfid : ∀ a, a.messageId = mid → (f a).messageId = a.messageId) :
    ∀ {l l2 : List MessageRecord}, updateFirstById mid f l = some l2 →
      ∀ k, countId l2 k = countId l k := by
  intro l
  induction l with
  | nil => intro l2 h; cases h
  | cons a l ih =>
    intro l2 h k
    unfold updateFirstById at h
    by_cases ha : a.messageId = mid
    · rw [if_pos ha] at h
      injection h with h
      subst h
      unfold countId
      rw [List.countP_cons, List.countP_cons]
      have hsame : idIs k (f a) = idIs k a := by
        simp [idIs, hfid a ha]
      rw [hsame]
    · rw [if_neg ha] at h
      cases hu : updateFirstById mid f l with
      | none => rw [hu] at h; cases h
      | some l3 =>
        rw [hu, Option.map_some'] at h
        injection h with h
        subst h
        unfold countId
        rw [List.countP_cons, List.countP_cons]
        have h3 := ih hu k
        unfold countId at h3
        omega

theorem ne_of_isOptimisticId {a b : String} (ha : isOptimisticId a = true)
    (hb : isOptimisticId b = false) : ¬ a = b := by
  intro h
  rw [h, hb] at ha
  cases ha

theorem countId_settleMerged (merged : List MessageRecord) (nxt : MessageRecord)
    (mrb : Bool) (k : String) :
    countId (settleMerged merged nxt mrb) k =
      if mrb = true ∧ 0 < countId merged nxt.messageId then countId merged k
      else countId merged k + countId [nxt] k := by
  cases mrb with
  | false =>
    rw [if_neg (by simp)]
    show countId (normalizeMessages (merged ++ [nxt])) k = _
    rw [countId_normalizeMessages, countId_append]
  | true =>
    show countId (match updateFirstById nxt.messageId
        (fun ex => mergeReadBySets ex nxt) merged with
      | some replaced => normalizeMessages replaced
      | none => normalizeMessages (merged ++ [nxt])) k = _
    cases hu : updateFirstById nxt.messageId (fun ex => mergeReadBySets ex nxt) merged with
    | none =>
      have hz : countId merged nxt.messageId = 0 :=
        countId_eq_zero.mpr (updateFirstById_none hu)
      rw [if_neg (by omega)]
      rw [countId_normalizeMessages, countId_append]
    | some replaced =>
      have hpos : 0 < countId merged nxt.messageId := by
        rcases updateFirstById_some_found hu with ⟨a, ha, haid⟩
        exact countId_pos_of_mem ha haid
      rw [if_pos ⟨rfl, hpos⟩, countId_normalizeMessages]
      exact countId_updateFirstById (fun a ha => by simp [mergeReadBySets, ha]) hu k

/-- C1 (amended): after `prependOptimistic(m)` followed by
`settleOptimistic(m.messageId, final, {mergeReadBy})` with a persisted `final`,
the visible sequence contains exactly one entry with id `final.messageId` and
none with the optimistic id — provided the starting state contained no entry
with the final id (respectively at most one such entry when `mergeReadBy` is
requested). -/
theorem settle_after_prepend_unique_final (s : MergeState) (m final : MessageRecord)
    (mrb : Bool)
    (hm : isOptimisticId m.messageId = true)
    (hfi : isOptimisticId final.messageId = false)
    (hprev : countId s.messages final.messageId ≤ if mrb then 1 else 0) :
    countId (settleOptimistic (prependOptimistic s m) m.messageId
        (some final) mrb).messages final.messageId = 1 ∧
    countId (settleOptimistic (prependOptimistic s m) m.messageId
        (some final) mrb).messages m.messageId = 0 := by
  have hne : ¬ m.messageId = final.messageId := ne_of_isOptimisticId hm hfi
  have hmsg : (settleOptimistic (prependOptimistic s m) m.messageId
      (some final) mrb).messages
      = settleMerged
          (((prependOptimistic s m).messages.filter
              (fun x => ¬ x.messageId = m.messageId)).filter
            (fun x => ¬ (x.messageId = final.messageId ∧ isOptimisticId x.messageId = true)))
          final mrb := rfl
  rw [hmsg]
  set merged := ((prependOptimistic s m).messages.filter
      (fun x => ¬ x.messageId = m.messageId)).filter
    (fun x => ¬ (x.messageId = final.messageId ∧ isOptimisticId x.messageId = true))
    with hmg
  have hWfin : countId (prependOptimistic s m).messages final.messageId
      = countId s.messages final.messageId := by
    show countId (normalizeMessages (s.messages ++ [m])) final.messageId = _
    rw [countId_normalizeMessages, countId_append, countId_singleton_ne hne]
    omega
  have hwoFin : countId ((prependOptimistic s m).messages.filter
      (fun x => ¬ x.messageId = m.messageId)) final.messageId
      = countId s.messages final.messageId := by
    rw [countId_filter_of_imp, hWfin]
    intro x hx
    simp only [idIs, decide_eq_true_eq] at hx
    simp only [decide_eq_true_eq]
    intro hc
    exact hne (hc.symm.trans hx)
  have hwoM : countId ((prependOptimistic s m).messages.filter
      (fun x => ¬ x.messageId = m.messageId)) m.messageId = 0 := by
    rw [countId_eq_zero]
    intro x hx hxk
    rcases List.mem_filter.mp hx with ⟨_, hpred⟩
    simp only [decide_eq_true_eq] at hpred
    exact hpred hxk
  have hmgFin : countId merged final.messageId = countId s.messages final.messageId := by
    rw [hmg, countId_filter_of_imp, hwoFin]
    intro x hx
    simp only [idIs, decide_eq_true_eq] at hx
    simp only [decide_eq_true_eq]
    rintro ⟨hid, hopt⟩
    rw [hx, hfi] at hopt
    cases hopt
  have hmgM : countId merged m.messageId = 0 := by
    have h2 := countId_filter_le ((prependOptimistic s m).messages.filter
        (fun x => ¬ x.messageId = m.messageId))
      (fun x => decide (¬ (x.messageId = final.messageId ∧ isOptimisticId x.messageId = true)))
      m.messageId
    rw [← hmg] at h2
    omega
  rw [countId_settleMerged, countId_settleMerged]
  cases mrb with
  | false =>
    have hz : countId s.messages final.messageId = 0 := by
      simp only [if_neg (Bool.false_ne_true)] at hprev
      omega
    constructor
    · rw [if_neg (by simp), hmgFin, hz, countId_singleton_eq rfl]
    · rw [if_neg (by simp), hmgM, countId_singleton_ne (fun h => hne h.symm)]
  | true =>
    have hprev1 : countId s.messages final.messageId ≤ 1 := by
      simpa using hprev
    by_cases hpos : 0 < countId merged final.messageId
    · constructor
      · rw [if_pos ⟨rfl, hpos⟩, hmgFin]
        rw [hmgFin] at hpos
        omega
      · rw [if_pos ⟨rfl, hpos⟩, hmgM]
    · constructor
      · rw [if_neg (fun hc => hpos hc.2), hmgFin, countId_singleton_eq rfl]
        rw [hmgFin] at hpos
        omega
      · rw [if_neg (fun hc => hpos hc.2), hmgM,
          countId_singleton_ne (fun h => hne h.symm)]

/-- Witness for the amended C1 at a concrete state: a live entry with the final
id already present and `mergeReadBy` requested. -/
theorem settle_after_prepend_unique_final_witness :
    countId (settleOptimistic (prependOptimistic cexState cexOpt) "optimistic-1"
        (some cexFinal) true).messages "m1" = 1 ∧
    countId (settleOptimistic (prependOptimistic cexState cexOpt) "optimistic-1"
        (some cexFinal) true).messages "optimistic-1" = 0 :=
  settle_after_prepend_unique_final cexState cexOpt cexFinal true
    (by decide) (by decide) (by decide)

/-- C1 counterexample: with a concurrent realtime delivery already visible under
the final id and `mergeReadBy` not requested, settling appends a duplicate —
the visible sequence then contains two entries with the final id, refuting the
claim for this starting state. -/
theorem settle_after_prepend_duplicate_final_cex :
    countId (settleOptimistic (prependOptimistic cexState cexOpt) "optimistic-1"
        (some cexFinal) false).messages "m1" = 2 := by
  decide

theorem updateOptimistic_eq_none {s : MergeState} {oid : String} {patch : MessagePatch}
    (h : recordGet s.optimistic oid = none) : updateOptimistic s oid patch = s := by
  unfold updateOptimistic
  rw [h]

theorem updateOptimistic_eq_some {s : MergeState} {oid : String} {patch : MessagePatch}
    {e : MessageRecord} (h : recordGet s.optimistic oid = some e) :
    updateOptimistic s oid patch =
      { s with
        optimistic := recordSet s.optimistic oid (applyPatch e patch)
        messages := s.messages.map
          (fun m => if m.messageId = oid then applyPatch e patch else m) } := by
  unfold updateOptimistic
  rw [h]

/-- C10: `updateOptimistic(id, patch)` with an id that is not pending is a
total no-op, and with a pending id it only substitutes the visible entries
carrying that id: the list keeps its length, every position holding another id
keeps its exact entry, every other side-table key keeps its value, and the
flags are untouched. -/
theorem updateOptimistic_frame (s : MergeState) (oid : String) (patch : MessagePatch) :
    (recordGet s.optimistic oid = none → updateOptimistic s oid patch = s) ∧
    (∀ e, recordGet s.optimistic oid = some e →
      (updateOptimistic s oid patch).messages.length = s.messages.length ∧
      (∀ (i : Nat) (m2 : MessageRecord), s.messages[i]? = some m2 →
        ¬ m2.messageId = oid →
        (updateOptimistic s oid patch).messages[i]? = some m2) ∧
      (∀ k, ¬ k = oid →
        recordGet (updateOptimistic s oid patch).optimistic k
          = recordGet s.optimistic k) ∧
      (updateOptimistic s oid patch).hasMore = s.hasMore ∧
      (updateOptimistic s oid patch).loading = s.loading) := by
  constructor
  · exact updateOptimistic_eq_none
  · intro e he
    rw [updateOptimistic_eq_some he]
    refine ⟨List.length_map _ _, ?_, ?_, rfl, rfl⟩
    · intro i m2 hi hne
      show (s.messages.map
        (fun m => if m.messageId = oid then applyPatch e patch else m))[i]? = some m2
      rw [List.getElem?_map, hi]
      simp only [Option.map_some']
      rw [if_neg hne]
    · intro k hk
      exact recordGet_recordSet_ne _ _ _ _ hk

/-- Witness for C10: a no-op on a state with an empty side-table, and a framed
update on a state with one pending entry. -/
theorem updateOptimistic_frame_witness :
    updateOptimistic cexState "optimistic-1" cexLatePatch = cexState ∧
    (updateOptimistic cexOptState "optimistic-1" cexLatePatch).messages[1]?
      = some cexLive := by
  constructor
  · exact (updateOptimistic_frame cexState "optimistic-1" cexLatePatch).1 (by decide)
  · exact ((updateOptimistic_frame cexOptState "optimistic-1" cexLatePatch).2
      cexOptEarly (by decide)).2.1 1 cexLive (by decide) (by decide)

/-- C6: a zero-document realtime emission reports `hasMore=false`, finishes
loading, and leaves exactly the pending optimistic entries visible — for every
state and page size, and in particular for page size 40 over an empty chat with
nothing pending. -/
theorem applySnapshot_empty_docs (s : MergeState) (pageSize : Nat) :
    (applySnapshot s [] pageSize).hasMore = false ∧
    (applySnapshot s [] pageSize).messages = optValues s ∧
    (applySnapshot s [] pageSize).loading = false ∧
    (applySnapshot ⟨[], [], true, true⟩ [] 40).hasMore = false ∧
    (applySnapshot ⟨[], [], true, true⟩ [] 40).messages = [] :=
  ⟨rfl, rfl, rfl, rfl, rfl⟩

theorem applySnapshot_nonempty (s : MergeState) {docs : List MessageRecord}
    (pageSize : Nat) (hd : docs ≠ []) :
    applySnapshot s docs pageSize =
      { s with
        messages := normalizeMessages (dedupById
          ((s.messages.filter (fun m => ¬ isOptimisticId m.messageId = true))
            ++ normalizeMessages (docs ++ optValues s)))
        loading := false
        hasMore := decide (docs.length = pageSize) } := by
  unfold applySnapshot
  rw [if_neg (by simpa [List.isEmpty_iff] using hd)]

theorem idsNodup_normalizeMessages {l : List MessageRecord} (h : idsNodup l) :
    idsNodup (normalizeMessages l) := by
  unfold idsNodup at h ⊢
  exact ((normalizeMessages_perm l).map (fun m => m.messageId)).nodup_iff.mpr h

theorem countId_eq_one_of_idsNodup :
    ∀ {l : List MessageRecord}, idsNodup l → ∀ {d : MessageRecord}, d ∈ l →
      countId l d.messageId = 1 := by
  intro l
  induction l with
  | nil => intro _ d hd; cases hd
  | cons a l ih =>
    intro h d hd
    have hnd : idsNodup l := by
      unfold idsNodup at h ⊢
      exact (List.nodup_cons.mp h).2
    have hna : a.messageId ∉ l.map (fun m => m.messageId) :=
      (List.nodup_cons.mp h).1
    unfold countId
    rw [List.countP_cons]
    rcases List.mem_cons.mp hd with rfl | hd
    · have hz : countId l d.messageId = 0 := by
        rw [countId_eq_zero]
        intro x hx hxk
        exact hna (hxk ▸ List.mem_map.mpr ⟨x, hx, rfl⟩)
      unfold countId at hz
      simp [idIs, hz]
    · have h1 := ih hnd hd
      unfold countId at h1
      have hne : ¬ a.messageId = d.messageId := by
        intro hc
        exact hna (hc ▸ List.mem_map.mpr ⟨d, hd, rfl⟩)
      simp [idIs, hne, h1]

/-- C2 (amended): on a non-empty realtime emission, previous non-optimistic
entries are retained (not replaced) and merged with the live window: every
previous non-optimistic id stays visible; a live entry wins its id (under
distinct live ids and the optimistic-prefix discipline); the result carries no
duplicate id; and `hasMore` is exactly "the window is full". -/
theorem applySnapshot_merge (s : MergeState) (docs : List MessageRecord)
    (pageSize : Nat) (hd : docs ≠ []) :
    ((applySnapshot s docs pageSize).hasMore = decide (docs.length = pageSize)) ∧
    (∀ p ∈ s.messages, isOptimisticId p.messageId = false →
      ∃ q ∈ (applySnapshot s docs pageSize).messages, q.messageId = p.messageId) ∧
    (idsNodup docs → (∀ o ∈ optValues s, isOptimisticId o.messageId = true) →
      (∀ d ∈ docs, isOptimisticId d.messageId = false) →
      ∀ d ∈ docs, d ∈ (applySnapshot s docs pageSize).messages) ∧
    idsNodup (applySnapshot s docs pageSize).messages := by
  rw [applySnapshot_nonempty s pageSize hd]
  refine ⟨rfl, ?_, ?_, ?_⟩
  · intro p hp hpopt
    have hpn : p ∈ s.messages.filter (fun m => ¬ isOptimisticId m.messageId = true) :=
      List.mem_filter.mpr ⟨hp, by simp [hpopt]⟩
    have hmem : p ∈ (s.messages.filter (fun m => ¬ isOptimisticId m.messageId = true))
        ++ normalizeMessages (docs ++ optValues s) := List.mem_append_left _ hpn
    rcases exists_id_dedupById hmem with ⟨q, hq, hqid⟩
    exact ⟨q, mem_normalizeMessages.mpr hq, hqid⟩
  · intro hnd hopt hdocs d hdmem
    have hdopt : isOptimisticId d.messageId = false := hdocs d hdmem
    have hdin : d ∈ normalizeMessages (docs ++ optValues s) :=
      mem_normalizeMessages.mpr (List.mem_append_left _ hdmem)
    have hcnt : countId (normalizeMessages (docs ++ optValues s)) d.messageId = 1 := by
      rw [countId_normalizeMessages, countId_append,
        countId_eq_one_of_idsNodup hnd hdmem,
        countId_eq_zero.mpr (fun o ho hc =>
          (ne_of_isOptimisticId (hopt o ho) hdopt) (hc.trans rfl))]
    rcases List.append_of_mem hdin with ⟨m1, m2, hsplit⟩
    have hm2 : ∀ y ∈ m2, ¬ y.messageId = d.messageId := by
      intro y hy hc
      have h2 : countId (m1 ++ d :: m2) d.messageId
          = countId m1 d.messageId + (1 + countId m2 d.messageId) := by
        rw [countId_append]
        unfold countId
        rw [List.countP_cons]
        simp [idIs]
        omega
      rw [hsplit, h2] at hcnt
      have hpos : 0 < countId m2 d.messageId := countId_pos_of_mem hy hc
      omega
    have hlast : d ∈ dedupById
        (((s.messages.filter (fun m => ¬ isOptimisticId m.messageId = true)) ++ m1)
          ++ d :: m2) :=
      mem_dedupById_of_last _ m2 d hm2
    have hre : ((s.messages.filter (fun m => ¬ isOptimisticId m.messageId = true)) ++ m1)
        ++ d :: m2
        = (s.messages.filter (fun m => ¬ isOptimisticId m.messageId = true))
          ++ normalizeMessages (docs ++ optValues s) := by
      rw [List.append_assoc, ← hsplit]
    rw [hre] at hlast
    exact mem_normalizeMessages.mpr hlast
  · exact idsNodup_normalizeMessages (idsNodup_dedupById _)

/-- Witness for the amended C2: the previous persisted entry survives an
emission that no longer contains it, and the live entry is present. -/
theorem applySnapshot_merge_witness :
    (∃ q ∈ (applySnapshot cexState [cexDoc] 30).messages, q.messageId = "m1") ∧
    cexDoc ∈ (applySnapshot cexState [cexDoc] 30).messages := by
  constructor
  · exact (applySnapshot_merge cexState [cexDoc] 30 (by decide)).2.1
      cexLive (by decide) (by decide)
  · exact (applySnapshot_merge cexState [cexDoc] 30 (by decide)).2.2.1
      (by decide) (by decide) (by decide) cexDoc (by decide)

/-- C2 counterexample: a previous non-optimistic entry absent from the emitted
live window is still visible after the merge — non-optimistic entries are not
fully replaced by the live set. -/
theorem applySnapshot_merge_cex :
    cexLive ∈ cexState.messages ∧ isOptimisticId cexLive.messageId = false ∧
    (∀ d ∈ [cexDoc], ¬ d.messageId = cexLive.messageId) ∧
    cexLive ∈ (applySnapshot cexState [cexDoc] 30).messages := by
  decide

theorem settleMerged_sorted (merged : List MessageRecord) (nxt : MessageRecord)
    (mrb : Bool) : (settleMerged merged nxt mrb).Sorted msgLe := by
  cases mrb with
  | false => exact normalizeMessages_sorted _
  | true =>
    show (match updateFirstById nxt.messageId
        (fun ex => mergeReadBySets ex nxt) merged with
      | some replaced => normalizeMessages replaced
      | none => normalizeMessages (merged ++ [nxt])).Sorted msgLe
    cases updateFirstById nxt.messageId (fun ex => mergeReadBySets ex nxt) merged with
    | some replaced => exact normalizeMessages_sorted _
    | none => exact normalizeMessages_sorted _

/-- C3 (amended): `normalizeMessages` is a stable ascending sort (sorted
output, a permutation, tie classes in original order); the subscription merge
with a non-empty window, `prependOptimistic`, and `settleOptimistic` always
leave the visible list sorted; a zero-document emission leaves exactly the
side-table values in insertion order; `loadMore` preserves sortedness provided
entries sharing an id share a creation instant; and `updateOptimistic`
preserves sortedness provided the patch does not move the creation instant and
the visible entries of the patched id agree with the side-table entry's
instant. -/
theorem merge_engine_sorted (s : MergeState) (docs older : List MessageRecord)
    (pageSize : Nat) (m : MessageRecord) (oid : String)
    (next : Option MessageRecord) (mrb : Bool) (patch : MessagePatch)
    (l : List MessageRecord) (k : Int) :
    ((normalizeMessages l).Sorted msgLe ∧
      List.Perm (normalizeMessages l) l ∧
      (normalizeMessages l).filter (keyIs k) = l.filter (keyIs k)) ∧
    (docs ≠ [] → ((applySnapshot s docs pageSize).messages).Sorted msgLe) ∧
    ((applySnapshot s [] pageSize).messages = optValues s) ∧
    (((prependOptimistic s m).messages).Sorted msgLe) ∧
    (s.messages.Sorted msgLe →
      ((settleOptimistic s oid next mrb).messages).Sorted msgLe) ∧
    (s.messages.Sorted msgLe → sameIdSameKey (s.messages ++ older) →
      ((loadMore s older pageSize).messages).Sorted msgLe) ∧
    (s.messages.Sorted msgLe → patch.createdAt = none →
      (∀ e, recordGet s.optimistic oid = some e →
        ∀ x ∈ s.messages, x.messageId = oid → createdMs x = createdMs e) →
      ((updateOptimistic s oid patch).messages).Sorted msgLe) := by
  refine ⟨⟨normalizeMessages_sorted l, normalizeMessages_perm l,
    normalizeMessages_stable k l⟩, ?_, rfl, normalizeMessages_sorted _, ?_, ?_, ?_⟩
  · intro hd
    rw [applySnapshot_nonempty s pageSize hd]
    exact normalizeMessages_sorted _
  · intro hs
    cases next with
    | none => exact hs.filter _
    | some nxt => exact settleMerged_sorted _ _ _
  · intro hs hsk
    unfold loadMore
    by_cases hhm : ¬ s.hasMore = true
    · rw [if_pos hhm]; exact hs
    · rw [if_neg hhm]
      by_cases he : older.isEmpty = true
      · rw [if_pos he]; exact hs
      · rw [if_neg he]
        show (dedupById (normalizeMessages (s.messages ++ older))).Sorted msgLe
        refine dedupById_sorted (normalizeMessages_sorted _) ?_
        refine sameIdSameKey_mono ?_ hsk
        intro x hx
        exact mem_normalizeMessages.mp hx
  · intro hs hpc hmatch
    cases hget : recordGet s.optimistic oid with
    | none => rw [updateOptimistic_eq_none hget]; exact hs
    | some e =>
      rw [updateOptimistic_eq_some hget]
      show (s.messages.map
        (fun x => if x.messageId = oid then applyPatch e patch else x)).Sorted msgLe
      apply List.pairwise_map.mpr
      refine List.Pairwise.imp_of_mem ?_ hs
      intro a b ha hb hab
      have hkey : ∀ x ∈ s.messages,
          createdMs (if x.messageId = oid then applyPatch e patch else x)
            = createdMs x := by
        intro x hx
        by_cases hxo : x.messageId = oid
        · rw [if_pos hxo]
          have h1 : createdMs (applyPatch e patch) = createdMs e := by
            unfold applyPatch createdMs
            rw [hpc]
            rfl
          rw [h1, ← hmatch e hget x hx hxo]
        · rw [if_neg hxo]
      show msgLe _ _
      unfold msgLe
      rw [hkey a ha, hkey b hb]
      exact hab

/-- Witness for the amended C3 at concrete inputs: `loadMore` with disjoint
ids and `updateOptimistic` with a patch that keeps the creation instant both
preserve sortedness. -/
theorem merge_engine_sorted_witness :
    ((loadMore cexState [cexDoc] 30).messages).Sorted msgLe ∧
    ((updateOptimistic cexOptState "optimistic-1" cexTextPatch).messages).Sorted
      msgLe := by
  constructor
  · exact (merge_engine_sorted cexState [] [cexDoc] 30 cexOpt "x" none false
      cexTextPatch [] 0).2.2.2.2.2.1 (by decide) (by decide)
  · refine (merge_engine_sorted cexOptState [] [] 30 cexOpt "optimistic-1" none false
      cexTextPatch [] 0).2.2.2.2.2.2 (by decide) (by decide) ?_
    intro e he
    have hval : recordGet cexOptState.optimistic "optimistic-1" = some cexOptEarly := by
      decide
    rw [hval] at he
    injection he with he2
    subst he2
    decide

/-- C3 counterexample: `updateOptimistic` applied to a sorted state with a
patch that moves the creation instant leaves the visible list unsorted — the
visible sequence is not re-sorted by this operation. -/
theorem merge_engine_sorted_cex :
    cexOptState.messages.Sorted msgLe ∧
    ¬ ((updateOptimistic cexOptState "optimistic-1" cexLatePatch).messages).Sorted
      msgLe := by
  decide

theorem assertRateLimit_none {now : Int} {key : String} {opts : RateLimiterOptions}
    {st : RLState} (h : recordGet st key = none) :
    assertRateLimit now key opts st
      = (none, recordSet st key ⟨1, now + opts.windowMs⟩) := by
  unfold assertRateLimit
  rw [h]

theorem assertRateLimit_some {now : Int} {key : String} {opts : RateLimiterOptions}
    {st : RLState} {b : Bucket} (h : recordGet st key = some b) :
    assertRateLimit now key opts st =
      if b.expiresAt ≤ now then (none, recordSet st key ⟨1, now + opts.windowMs⟩)
      else if opts.maxRequests ≤ b.count then (some "resource-exhausted", st)
      else (none, recordSet st key ⟨b.count + 1, b.expiresAt⟩) := by
  unfold assertRateLimit
  rw [h]

theorem runCalls_live_bucket (key : String) (opts : RateLimiterOptions) :
    ∀ (rest : List Int) (st : RLState) (c : Nat) (exp : Int),
      recordGet st key = some ⟨c, exp⟩ → 1 ≤ c → c ≤ opts.maxRequests →
      (∀ t ∈ rest, t < exp) →
      (runCalls key opts rest st).1 = min rest.length (opts.maxRequests - c)
  | [], st, c, exp, _, _, _, _ => by simp [runCalls]
  | t :: rest, st, c, exp, hget, hc1, hcm, hlt => by
    have hlive : ¬ (Bucket.mk c exp).expiresAt ≤ t := by
      have h2 := hlt t (List.mem_cons_self t rest)
      simpa using h2
    have hrest : ∀ t2 ∈ rest, t2 < exp :=
      fun t2 ht2 => hlt t2 (List.mem_cons_of_mem t ht2)
    show (if (assertRateLimit t key opts st).1.isNone then 1 else 0)
        + (runCalls key opts rest (assertRateLimit t key opts st).2).1
      = min (t :: rest).length (opts.maxRequests - c)
    by_cases hmax : opts.maxRequests ≤ (Bucket.mk c exp).count
    · have hr : assertRateLimit t key opts st = (some "resource-exhausted", st) := by
        rw [assertRateLimit_some hget, if_neg hlive, if_pos hmax]
      rw [hr]
      simp only [Option.isNone_some, if_neg (Bool.false_ne_true)]
      rw [runCalls_live_bucket key opts rest st c exp hget hc1 hcm hrest]
      simp only [List.length_cons]
      simp only [Bucket.count] at hmax
      omega
    · have hr : assertRateLimit t key opts st
          = (none, recordSet st key ⟨c + 1, exp⟩) := by
        rw [assertRateLimit_some hget, if_neg hlive, if_neg hmax]
      rw [hr]
      simp only [Option.isNone_none, if_pos]
      rw [runCalls_live_bucket key opts rest (recordSet st key ⟨c + 1, exp⟩)
        (c + 1) exp (recordGet_recordSet_self st key ⟨c + 1, exp⟩)
        (by omega) (by simp only [Bucket.count] at hmax; omega) hrest]
      simp only [List.length_cons]
      simp only [Bucket.count] at hmax
      omega

theorem runCalls_fresh (key : String) (opts : RateLimiterOptions) (t0 : Int)
    (rest : List Int) (st : RLState) (hget : recordGet st key = none)
    (hmax : 1 ≤ opts.maxRequests) (hrest : ∀ t ∈ rest, t < t0 + opts.windowMs) :
    (runCalls key opts (t0 :: rest) st).1
      = min (t0 :: rest).length opts.maxRequests := by
  have hr : assertRateLimit t0 key opts st
      = (none, recordSet st key ⟨1, t0 + opts.windowMs⟩) :=
    assertRateLimit_none hget
  show (if (assertRateLimit t0 key opts st).1.isNone then 1 else 0)
      + (runCalls key opts rest (assertRateLimit t0 key opts st).2).1
    = min (t0 :: rest).length opts.maxRequests
  rw [hr]
  simp only [Option.isNone_none, if_pos]
  rw [runCalls_live_bucket key opts rest _ 1 (t0 + opts.windowMs)
    (recordGet_recordSet_self st key ⟨1, t0 + opts.windowMs⟩) le_rfl hmax hrest]
  simp only [List.length_cons]
  omega

/-- C4 (amended): one call of `assertRateLimit` rejects with resource-exhausted
exactly when the key holds a live (unexpired) window whose counter has reached
`maxRequests`; otherwise it returns normally, starting a fresh window with
count 1 when no live window exists and incrementing the live counter (without
touching the expiry) otherwise.  Consequently, for `maxRequests ≥ 1`, of any
run of calls inside one fixed window exactly `maxRequests` succeed; when
`maxRequests = 0` the first call of a window still succeeds, because a fresh
window is always created with count 1. -/
theorem assertRateLimit_spec :
    (∀ (now : Int) (key : String) (opts : RateLimiterOptions) (st : RLState),
      (assertRateLimit now key opts st).1.isSome = true ↔
        ∃ b, recordGet st key = some b ∧ now < b.expiresAt ∧
          opts.maxRequests ≤ b.count) ∧
    (∀ (now : Int) (key : String) (opts : RateLimiterOptions) (st : RLState),
      (recordGet st key = none ∨
        ∃ b, recordGet st key = some b ∧ b.expiresAt ≤ now) →
      (assertRateLimit now key opts st).1 = none ∧
        recordGet (assertRateLimit now key opts st).2 key
          = some ⟨1, now + opts.windowMs⟩) ∧
    (∀ (now : Int) (key : String) (opts : RateLimiterOptions) (st : RLState) (b : Bucket),
      recordGet st key = some b → now < b.expiresAt → b.count < opts.maxRequests →
      (assertRateLimit now key opts st).1 = none ∧
        recordGet (assertRateLimit now key opts st).2 key
          = some ⟨b.count + 1, b.expiresAt⟩) ∧
    (∀ (key : String) (opts : RateLimiterOptions) (t0 : Int) (rest : List Int)
        (st : RLState),
      recordGet st key = none → 1 ≤ opts.maxRequests →
      (∀ t ∈ rest, t < t0 + opts.windowMs) →
      (runCalls key opts (t0 :: rest) st).1
        = min (t0 :: rest).length opts.maxRequests) := by
  refine ⟨?_, ?_, ?_, runCalls_fresh⟩
  · intro now key opts st
    cases hget : recordGet st key with
    | none =>
      rw [assertRateLimit_none hget]
      simp only [Option.isSome_none, Bool.false_eq_true, false_iff]
      rintro ⟨b, hb, _⟩
      cases hb
    | some b =>
      rw [assertRateLimit_some hget]
      by_cases h1 : b.expiresAt ≤ now
      · rw [if_pos h1]
        simp only [Option.isSome_none, Bool.false_eq_true, false_iff]
        rintro ⟨b2, hb2, hlt, _⟩
        injection hb2 with hb2
        subst hb2
        omega
      · rw [if_neg h1]
        by_cases h2 : opts.maxRequests ≤ b.count
        · rw [if_pos h2]
          simp only [Option.isSome_some, true_iff]
          exact ⟨b, rfl, by omega, h2⟩
        · rw [if_neg h2]
          simp only [Option.isSome_none, Bool.false_eq_true, false_iff]
          rintro ⟨b2, hb2, _, hmax⟩
          injection hb2 with hb2
          subst hb2
          omega
  · intro now key opts st h
    rcases h with h | ⟨b, hb, hexp⟩
    · rw [assertRateLimit_none h]
      exact ⟨rfl, recordGet_recordSet_self _ _ _⟩
    · rw [assertRateLimit_some hb, if_pos hexp]
      exact ⟨rfl, recordGet_recordSet_self _ _ _⟩
  · intro now key opts st b hb hlt hcount
    rw [assertRateLimit_some hb, if_neg (by omega), if_neg (by omega)]
    exact ⟨rfl, recordGet_recordSet_self _ _ _⟩

/-- Witness for the amended C4: with `maxRequests = 2` and four calls inside one
window, exactly two succeed. -/
theorem assertRateLimit_spec_witness :
    (runCalls "k" ⟨1000, 2⟩ [0, 1, 2, 3] []).1 = min 4 2 :=
  assertRateLimit_spec.2.2.2 "k" ⟨1000, 2⟩ 0 [1, 2, 3] []
    (by decide) (by decide) (by decide)

/-- C4 counterexample: with `maxRequests = 0` the first call of a window still
returns normally (a fresh window is created with count 1), so one call
succeeds where the claim promises that exactly zero succeed. -/
theorem assertRateLimit_zero_max_cex :
    (runCalls "k" ⟨1000, 0⟩ [0] []).1 = 1 ∧
    (assertRateLimit 0 "k" ⟨1000, 0⟩ []).1 = none := by
  exact ⟨by decide, by decide⟩

/-- C9: a rejected call leaves the rate-limiter state for every key completely
unchanged — neither the counter nor the window expiry moves, so rejected calls
consume no quota and never extend the live window. -/
theorem assertRateLimit_reject_frame (now : Int) (key : String)
    (opts : RateLimiterOptions) (st : RLState)
    (h : (assertRateLimit now key opts st).1.isSome = true) :
    (assertRateLimit now key opts st).2 = st := by
  cases hget : recordGet st key with
  | none =>
    rw [assertRateLimit_none hget] at h
    simp at h
  | some b =>
    rw [assertRateLimit_some hget] at h ⊢
    by_cases h1 : b.expiresAt ≤ now
    · rw [if_pos h1] at h
      simp at h
    · rw [if_neg h1] at h ⊢
      by_cases h2 : opts.maxRequests ≤ b.count
      · rw [if_pos h2]
      · rw [if_neg h2] at h
        simp at h

/-- Witness for C9: a saturated live bucket rejects and the map is untouched. -/
theorem assertRateLimit_reject_frame_witness :
    (assertRateLimit 0 "k" ⟨1000, 2⟩ [("k", ⟨2, 100⟩)]).1.isSome = true ∧
    (assertRateLimit 0 "k" ⟨1000, 2⟩ [("k", ⟨2, 100⟩)]).2 = [("k", ⟨2, 100⟩)] :=
  ⟨by decide, assertRateLimit_reject_frame 0 "k" ⟨1000, 2⟩ [("k", ⟨2, 100⟩)] (by decide)⟩

/-- C5 (amended): `toDate` is pure and total by construction (a total function
of its input value); it hands back a date exactly for a truthy native date, a
database timestamp, or any other non-null object carrying a `seconds` key (an
Invalid-Date instant when the two fields are not both numbers); the
seconds/nanoseconds conversion is `seconds*1000 + floor(nanoseconds/1e6)`; and
null/undefined (with every other primitive) give null. -/
theorem toDate_spec :
    (∀ v : JSValue, (toDate v).isSome = returnsInstant v) ∧
    (∀ ms : Int, toDate (.jsDate ms) = some (some ms)) ∧
    (∀ s ns : Int,
      toDate (.jsTimestamp s ns) = some (some (s * 1000 + Int.fdiv ns 1000000))) ∧
    (∀ s ns : Int,
      toDate (.jsObj [("seconds", .jsNum s), ("nanoseconds", .jsNum ns)])
        = some (some (s * 1000 + Int.fdiv ns 1000000))) ∧
    toDate .jsNull = none ∧ toDate .jsUndef = none := by
  refine ⟨?_, fun ms => rfl, fun s ns => rfl, fun s ns => rfl, rfl, rfl⟩
  intro v
  cases v with
  | jsNull => rfl
  | jsUndef => rfl
  | jsBool b => cases b <;> rfl
  | jsNum n =>
    show (toDate (.jsNum n)).isSome = false
    unfold toDate
    by_cases h : falsyJS (JSValue.jsNum n) = true
    · rw [if_pos h]; rfl
    · rw [if_neg h]; rfl
  | jsStr s =>
    show (toDate (.jsStr s)).isSome = false
    unfold toDate
    by_cases h : falsyJS (JSValue.jsStr s) = true
    · rw [if_pos h]; rfl
    · rw [if_neg h]; rfl
  | jsDate ms => rfl
  | jsTimestamp s ns => rfl
  | jsObj fields =>
    show (toDate (.jsObj fields)).isSome = (fields.any (fun p => p.1 == "seconds"))
    unfold toDate
    rw [if_neg (by simp [falsyJS])]
    show (if (fields.any fun p => p.1 == "seconds") = true then
        (match numField fields "seconds", numField fields "nanoseconds" with
          | some s, some ns => some (some (s * 1000 + Int.fdiv ns 1000000))
          | _, _ => some none)
      else none).isSome = (fields.any (fun p => p.1 == "seconds"))
    by_cases h : fields.any (fun p => p.1 == "seconds") = true
    · rw [if_pos h, h]
      cases numField fields "seconds" <;> cases numField fields "nanoseconds" <;> rfl
    · rw [if_neg h]
      have h2 : fields.any (fun p => p.1 == "seconds") = false :=
        Bool.not_eq_true _ |>.mp h
      rw [h2]
      rfl

/-- C5 counterexample: an object carrying a `seconds` key without a numeric
seconds/nanoseconds pair is not among the accepted shapes of the claim, yet
`toDate` hands back a non-null (Invalid Date) object instead of null. -/
theorem toDate_seconds_junk_cex :
    toDate (.jsObj [("seconds", .jsStr "x")]) = some none ∧
    (toDate (.jsObj [("seconds", .jsStr "x")])).isSome = true := by
  exact ⟨rfl, rfl⟩

theorem mem_foldr_tokens {userTokens : String → List String} {tk : String} :
    ∀ {targets : List String},
      tk ∈ targets.foldr (fun t acc => userTokens t ++ acc) [] ↔
        ∃ u ∈ targets, tk ∈ userTokens u := by
  intro targets
  induction targets with
  | nil => simp
  | cons a l ih => simp [List.mem_append, ih]

/-- C7: the fan-out resolves its targets as exactly the chat's participants
minus the sender minus the muted-by set; it performs at most one multicast
(none without a chat, targets, or tokens); the single payload carries the
deduplicated union of the targets' registration tokens; and every per-token
failure pattern ends in a log entry, never in a failure of the operation. -/
theorem sendMessageNotification_spec (chat : ChatDoc)
    (userTokens : String → List String) (chatId messageId : String)
    (msg : MessageData) :
    (∀ u, u ∈ notificationTargets chat msg ↔
      u ∈ chat.participants ∧ ¬ u = msg.senderId ∧ u ∉ chat.mutedBy) ∧
    (sendMessageNotification none userTokens chatId messageId msg
      = FanoutResult.noChat) ∧
    multicastCount (sendMessageNotification (some chat) userTokens chatId
      messageId msg) ≤ 1 ∧
    (notificationTargets chat msg = [] →
      sendMessageNotification (some chat) userTokens chatId messageId msg
        = FanoutResult.noTargets) ∧
    (∀ p, sendMessageNotification (some chat) userTokens chatId messageId msg
        = FanoutResult.multicast p →
      p.tokens = gatherTokens userTokens (notificationTargets chat msg) ∧
      p.tokens ≠ [] ∧ p.tokens.Nodup ∧
      (∀ tk ∈ p.tokens, ∃ u ∈ notificationTargets chat msg, tk ∈ userTokens u)) ∧
    (∀ responses : List Bool,
      handleMulticastResponse responses
          = FanoutLog.warnFailures (responses.filter (fun ok => !ok)).length ∨
        handleMulticastResponse responses
          = FanoutLog.infoDelivered (responses.countP (fun ok => ok))) := by
  refine ⟨?_, rfl, ?_, ?_, ?_, ?_⟩
  · intro u
    unfold notificationTargets
    rw [List.mem_filter]
    simp only [decide_eq_true_eq]
  · cases sendMessageNotification (some chat) userTokens chatId messageId msg with
    | multicast p => exact le_rfl
    | noChat => exact Nat.zero_le 1
    | noTargets => exact Nat.zero_le 1
    | noTokens => exact Nat.zero_le 1
  · intro h
    show (if (notificationTargets chat msg).isEmpty then FanoutResult.noTargets
      else if (gatherTokens userTokens (notificationTargets chat msg)).isEmpty then
        FanoutResult.noTokens
      else _) = FanoutResult.noTargets
    rw [if_pos (by rw [h]; rfl)]
  · intro p hp
    have hp2 : (if (notificationTargets chat msg).isEmpty then FanoutResult.noTargets
      else if (gatherTokens userTokens (notificationTargets chat msg)).isEmpty then
        FanoutResult.noTokens
      else FanoutResult.multicast
        ⟨gatherTokens userTokens (notificationTargets chat msg),
          notificationTitle chat, notificationBody msg,
          chatId, messageId, msg.msgType.getD "text"⟩)
        = FanoutResult.multicast p := hp
    by_cases ht : (notificationTargets chat msg).isEmpty = true
    · rw [if_pos ht] at hp2; cases hp2
    · rw [if_neg ht] at hp2
      by_cases htk :
          (gatherTokens userTokens (notificationTargets chat msg)).isEmpty = true
      · rw [if_pos htk] at hp2; cases hp2
      · rw [if_neg htk] at hp2
        injection hp2 with hp3
        subst hp3
        refine ⟨rfl, ?_, nodup_dedupKeepFirst _, ?_⟩
        · intro hc
          exact htk (by rw [show gatherTokens userTokens
              (notificationTargets chat msg) = [] from hc]; rfl)
        · intro tk htkmem
          have h2 : tk ∈ (notificationTargets chat msg).foldr
              (fun t acc => userTokens t ++ acc) [] :=
            mem_dedupKeepFirst.mp htkmem
          exact mem_foldr_tokens.mp h2
  · intro responses
    unfold handleMulticastResponse
    by_cases h : (responses.filter (fun ok => !ok)).length ≠ 0
    · left; rw [if_pos h]
    · right; rw [if_neg h]

/-- Witness for C7: on a three-member group with a muted member and one target
holding two tokens, the fan-out performs the single expected multicast with a
duplicate-free token list. -/
theorem sendMessageNotification_spec_witness :
    (sendMessageNotification (some cexChat) cexTokens "chat-1" "m9" cexMsg
      = FanoutResult.multicast cexPayload) ∧ cexPayload.tokens.Nodup := by
  have hmc : sendMessageNotification (some cexChat) cexTokens "chat-1" "m9" cexMsg
      = FanoutResult.multicast cexPayload := by decide
  exact ⟨hmc, ((sendMessageNotification_spec cexChat cexTokens "chat-1" "m9"
    cexMsg).2.2.2.2.1 cexPayload hmc).2.2.1⟩

/-- C8: dm chat identity is order-independent and equals the two ids sorted
lexicographically and joined with a double underscore. -/
theorem dmChatId_comm (a b : String) :
    dmChatId a b = dmChatId b a ∧
    dmChatId a b = (if a ≤ b then a ++ "__" ++ b else b ++ "__" ++ a) := by
  have hsort : ∀ x y : String,
      List.insertionSort (fun u v : String => u ≤ v) [x, y]
        = if x ≤ y then [x, y] else [y, x] := by
    intro x y
    show List.orderedInsert _ x (List.orderedInsert _ y []) = _
    by_cases h : x ≤ y
    · simp [List.orderedInsert, if_pos h]
    · simp [List.orderedInsert, if_neg h]
  constructor
  · unfold dmChatId
    rw [hsort, hsort]
    by_cases hab : a ≤ b
    · by_cases hba : b ≤ a
      · have heq : a = b := le_antisymm hab hba
        subst heq
        rfl
      · rw [if_pos hab, if_neg hba]
    · have hba : b ≤ a := le_of_not_le hab
      rw [if_neg hab, if_pos hba]
  · unfold dmChatId
    rw [hsort]
    by_cases hab : a ≤ b
    · rw [if_pos hab, if_pos hab]
      rfl
    · rw [if_neg hab, if_neg hab]
      rfl

end HotcodeChat